import Mathlib

/-!
Verification development for the MindfulMe backend core
(`src/backend/server.py`): crisis classification, streak tracking,
knowledge-node storage and extraction, and context retrieval.

Strings are modelled as lists of Unicode code points (`List Nat`); the
helper `codes` converts a Lean string literal into this representation.
All text processing in the source is over such sequences, with Python
`str.lower`, substring tests, `str.split`, and the regular expressions
of the extraction pipeline modelled character by character.
-/

namespace Mindful

/-- A string, modelled as its list of Unicode code points. -/
abbrev Str := List Nat

/-- Code points of a Lean string literal. -/
def codes (s : String) : Str := s.data.map Char.toNat

/-- ASCII uppercase letter, the character class `[A-Z]`. -/
def isUp (c : Nat) : Bool := 65 ≤ c && c ≤ 90

/-- ASCII lowercase letter, the character class `[a-z]`. -/
def isLo (c : Nat) : Bool := 97 ≤ c && c ≤ 122

/-- ASCII digit. -/
def isDigitC (c : Nat) : Bool := 48 ≤ c && c ≤ 57

/-- Word character, the class `\w` (ASCII range): letters, digits, underscore. -/
def isWordC (c : Nat) : Bool := isUp c || isLo c || isDigitC c || c == 95

/-- Whitespace, the class `\s` (ASCII range): space, tab, LF, CR, VT, FF. -/
def isSpC (c : Nat) : Bool := c == 32 || c == 9 || c == 10 || c == 13 || c == 11 || c == 12

/-- Python `str.lower` on one ASCII character. -/
def lowerChar (c : Nat) : Nat := if isUp c then c + 32 else c

/-- Python `str.lower` on a string. -/
def lowerStr (s : Str) : Str := s.map lowerChar

/-- Whether `n` is an initial segment of `h` (Python `str.startswith`). -/
def startsWithB : Str → Str → Bool
  | [], _ => true
  | _ :: _, [] => false
  | a :: as, b :: bs => a == b && startsWithB as bs

/-- Whether `n` occurs as a contiguous substring of `h` (Python `in` on strings). -/
def substrB (n : Str) : Str → Bool
  | [] => n.isEmpty
  | c :: t => startsWithB n (c :: t) || substrB n t

/-! ## Crisis detection (`detect_crisis_level`, server.py lines 396-468) -/

/-- The apostrophe code point, used in two medium-risk keywords. -/
def aposC : Nat := 39

/-- `CRISIS_KEYWORDS['high_risk']`, in source order. -/
def CRISIS_high : List Str :=
  [codes "suicide", codes "kill myself", codes "end my life", codes "want to die",
   codes "better off dead", codes "no reason to live", codes "ending it",
   codes "goodbye everyone", codes "final goodbye", codes "self harm",
   codes "hurt myself", codes "cutting myself", codes "overdose",
   codes "kill her", codes "kill him", codes "kill them", codes "murder"]

/-- `CRISIS_KEYWORDS['medium_risk']`, in source order. -/
def CRISIS_medium : List Str :=
  [codes "worthless", codes "hopeless", codes "nobody cares", codes "no one would miss me",
   codes "tired of living", codes "cant go on", codes "can" ++ [aposC] ++ codes "t take it anymore",
   codes "give up", codes "hate myself", codes "dont want to be here",
   codes "don" ++ [aposC] ++ codes "t want to wake up",
   codes "never be happy", codes "pointless", codes "burden to everyone"]

/-- `CRISIS_KEYWORDS['low_risk']`, in source order. -/
def CRISIS_low : List Str :=
  [codes "depressed", codes "anxious", codes "overwhelmed", codes "stressed out",
   codes "struggling", codes "feeling down", codes "cant cope",
   codes "falling apart", codes "losing it"]

/-- Result record of `detect_crisis_level`. -/
structure CrisisResult where
  level : String
  matched_keywords : List Str
  requires_intervention : Bool
  show_resources : Bool
deriving DecidableEq, Repr

/-- `detect_crisis_level` (server.py 428-468).  The source lowercases the
message, then walks each tier in order, appending every matching keyword of
the tier and setting the tier's level and flags; after the high tier (and
after the medium tier) it returns as soon as the level was set.  Each tier
loop therefore accumulates exactly the tier keywords that occur in the
lowercased message, in tier-list order, which is the `filter` below. -/
def detect_crisis_level (message : Str) : CrisisResult :=
  let ml := lowerStr message
  let highs := CRISIS_high.filter (fun k => substrB k ml)
  if highs.isEmpty then
    let meds := CRISIS_medium.filter (fun k => substrB k ml)
    if meds.isEmpty then
      let lows := CRISIS_low.filter (fun k => substrB k ml)
      { level := if lows.isEmpty then "none" else "low", matched_keywords := lows,
        requires_intervention := false, show_resources := false }
    else
      { level := "medium", matched_keywords := meds,
        requires_intervention := false, show_resources := true }
  else
    { level := "high", matched_keywords := highs,
      requires_intervention := true, show_resources := true }

/-! ## Streak tracking (`calculate_streak`, `update_streak`, `get_profile`;
server.py 199-248 and 656-667)

Calendar dates are modelled as integer day numbers: the source stores
`lastJournalDate` as a `YYYY-MM-DD` string and always converts via
`datetime.strptime(...).date()` before computing `(a - b).days`, so the
date layer is exactly integer day arithmetic. -/

/-- The streak-relevant fields of the profile document (`UserProfile`). -/
structure UserProfile where
  currentStreak : Nat
  longestStreak : Nat
  totalJournalDays : Nat
  lastJournalDate : Option Int
deriving DecidableEq, Repr

/-- `update_streak` (server.py 213-248): transition applied when a journal
entry for day `today` is created.  Mirrors the source: first-entry case sets
`days_diff = 1`; a `days_diff` of zero returns the profile unread; otherwise
the new streak is computed, `longestStreak` becomes the max with the new
streak, `lastJournalDate` is set, and `totalJournalDays` gains one. -/
def update_streak (p : UserProfile) (today : Int) : UserProfile :=
  match p.lastJournalDate with
  | none =>
    { currentStreak := 1, longestStreak := max 1 p.longestStreak,
      totalJournalDays := p.totalJournalDays + 1, lastJournalDate := some today }
  | some last =>
    let days_diff := today - last
    if days_diff = 0 then p
    else
      let new_streak := if days_diff = 1 then p.currentStreak + 1 else 1
      { currentStreak := new_streak, longestStreak := max new_streak p.longestStreak,
        totalJournalDays := p.totalJournalDays + 1, lastJournalDate := some today }

/-- `calculate_streak` (server.py 199-211): the streak value recomputed on
profile read at day `today`. -/
def calculate_streak (p : UserProfile) (today : Int) : Nat :=
  match p.lastJournalDate with
  | none => 0
  | some last => if today - last > 1 then 0 else p.currentStreak

/-- The `GET /profile` handler (server.py 656-667): reads the profile,
recomputes the streak, and writes `currentStreak` back only when it
changed. -/
def get_profile (p : UserProfile) (today : Int) : UserProfile :=
  let cs := calculate_streak p today
  if cs ≠ p.currentStreak then { p with currentStreak := cs } else p

/-! ## Knowledge store (`store_or_update_node`, server.py 351-383)

The Mongo collections are modelled as in-memory lists in insertion order;
`find_one` is `List.find?`, `insert_one` appends with a fresh surrogate id,
and the single-document `update_one` maps over the list. -/

/-- One document of the `knowledge_nodes` collection. -/
structure KnowledgeNode where
  nid : Nat
  profileId : Str
  entityType : Str
  entityName : Str
  firstMentioned : Nat
  lastMentioned : Nat
  mentionCount : Nat
deriving DecidableEq, Repr

/-- One document of the `knowledge_edges` collection. -/
structure KnowledgeEdge where
  eid : Nat
  profileId : Str
  sourceNodeId : Nat
  targetNodeId : Nat
  relationshipType : Str
  lastUpdated : Nat
deriving DecidableEq, Repr

/-- One document of the `extraction_logs` collection (`ExtractionLog`). -/
structure ExtractionLog where
  profileId : Str
  conversationId : Str
  messageContent : Str
  extractedNodes : List Nat
  extractedEdges : List Nat
deriving DecidableEq, Repr

/-- The database state touched by the knowledge-graph core. -/
structure Store where
  nodes : List KnowledgeNode
  edges : List KnowledgeEdge
  logs : List ExtractionLog
  nextId : Nat
deriving DecidableEq, Repr

/-- The natural-key filter used by `store_or_update_node`'s `find_one`. -/
def keyMatch (pid et en : Str) (n : KnowledgeNode) : Bool :=
  n.profileId == pid && n.entityType == et && n.entityName == en

/-- `store_or_update_node` (server.py 351-383).  If a node with the natural
key exists it is updated in place (`lastMentioned := now`, `mentionCount`
incremented) and the previously fetched document is returned; otherwise a
fresh node with `mentionCount = 1` is inserted and the inserted document is
returned. -/
def store_or_update_node (st : Store) (profile_id entity_type entity_name : Str)
    (now : Nat) : KnowledgeNode × Store :=
  match st.nodes.find? (keyMatch profile_id entity_type entity_name) with
  | some existing =>
    (existing,
      { st with nodes := st.nodes.map (fun n =>
          if n.nid == existing.nid then
            { n with lastMentioned := now, mentionCount := n.mentionCount + 1 }
          else n) })
  | none =>
    let node : KnowledgeNode :=
      { nid := st.nextId, profileId := profile_id, entityType := entity_type,
        entityName := entity_name, firstMentioned := now, lastMentioned := now,
        mentionCount := 1 }
    (node, { st with nodes := st.nodes ++ [node], nextId := st.nextId + 1 })

/-! ## Extraction pipeline (`extract_knowledge_from_message`, server.py 292-349)

Person candidates come from
`re.findall(r"\b[A-Z][a-z]+(?:\s+[A-Z][a-z]+)*\b", user_message)`.
The scanner below reproduces the Python regex semantics character by
character: at a position preceded by a non-word character (or the start of
the string), a token `[A-Z][a-z]+` is matched greedily, then further
`\s+[A-Z][a-z]+` groups are appended greedily; the final `\b` holds exactly
when the next character is not a word character, and when it fails the
engine backtracks by dropping the last group (whose preceding whitespace
then supplies the boundary).  A single token failing its trailing boundary
means no match starts at this position.  Matches are non-overlapping and
the scan resumes at the end of each match. -/

/-- Match one token `[A-Z][a-z]+` at the head of the input, greedily;
returns the token and the rest. -/
def matchTok : Str → Option (Str × Str)
  | [] => none
  | c :: cs =>
    if isUp c then
      let los := cs.takeWhile isLo
      if los.isEmpty then none
      else some (c :: los, cs.dropWhile isLo)
    else none

/-- Greedily match `(\s+[A-Z][a-z]+)*`: a list of (whitespace, token)
segments together with the unconsumed rest.  `fuel` bounds recursion depth;
callers pass at least the input length plus one. -/
def collectSegs : Nat → Str → List (Str × Str) × Str
  | 0, r => ([], r)
  | fuel + 1, r =>
    let ws := r.takeWhile isSpC
    if ws.isEmpty then ([], r)
    else
      match matchTok (r.dropWhile isSpC) with
      | none => ([], r)
      | some (t, r2) =>
        let (segs, rest) := collectSegs fuel r2
        ((ws, t) :: segs, rest)

/-- Flatten (whitespace, token) segments back into the matched text. -/
def flatSegs : List (Str × Str) → Str
  | [] => []
  | (ws, t) :: s => ws ++ t ++ flatSegs s

/-- Shape of one token of the person pattern: `[A-Z][a-z]+`, i.e. an
uppercase letter followed by at least one lowercase letter. -/
def tokShapeB (t : Str) : Bool :=
  match t with
  | [] => false
  | c :: cs => isUp c && !cs.isEmpty && cs.all isLo

/-- The trailing `\b` after a token: holds when the rest does not start
with a word character. -/
def boundaryOKB : Str → Bool
  | [] => true
  | c :: _ => !(isWordC c)

/-- Attempt a regex match at the head of `cs` (the leading `\b` having been
checked by the caller); returns the matched text and the rest of the input
after the match. -/
def tryMatchAt (cs : Str) : Option (Str × Str) :=
  match matchTok cs with
  | none => none
  | some (t1, r1) =>
    let sr := collectSegs r1.length r1
    if boundaryOKB sr.2 then some (t1 ++ flatSegs sr.1, sr.2)
    else
      match sr.1.getLast? with
      | none => none
      | some (ws, t) => some (t1 ++ flatSegs sr.1.dropLast, ws ++ t ++ sr.2)

/-- Scan the whole input for non-overlapping matches, left to right.
`atB` records whether the current position follows a non-word character
(or the start), i.e. whether the leading `\b` can hold on a word
character. -/
def scanP : Nat → Bool → Str → List Str
  | 0, _, _ => []
  | _, _, [] => []
  | fuel + 1, atB, c :: cs =>
    if atB then
      match tryMatchAt (c :: cs) with
      | some (m, rest) => m :: scanP fuel false rest
      | none => scanP fuel (!(isWordC c)) cs
    else scanP fuel (!(isWordC c)) cs

/-- All matches of the person regex in the message
(`re.findall(r"\b[A-Z][a-z]+(?:\s+[A-Z][a-z]+)*\b", user_message)`). -/
def reFindAllPeople (msg : Str) : List Str := scanP (msg.length + 1) true msg

/-- Python `str.split()` with no argument: maximal runs of non-whitespace,
empty runs dropped.  `fuel` bounds the number of produced words; callers
pass at least the input length plus one. -/
def splitWsF : Nat → Str → List Str
  | 0, _ => []
  | fuel + 1, s =>
    match s.dropWhile isSpC with
    | [] => []
    | c :: t =>
      ((c :: t).takeWhile (fun x => !(isSpC x)))
        :: splitWsF fuel ((c :: t).dropWhile (fun x => !(isSpC x)))

/-- Python `str.split()` with no argument. -/
def splitWs (s : Str) : List Str := splitWsF (s.length + 1) s

/-- The stopword list of the person filter (`['I','My','The','This','That']`). -/
def personStop : List Str :=
  [codes "I", codes "My", codes "The", codes "This", codes "That"]

/-- The filtered person list
(`[p for p in people if len(p.split()) <= 3 and p not in [...]]`). -/
def peopleFiltered (msg : Str) : List Str :=
  (reFindAllPeople msg).filter
    (fun p => (splitWs p).length ≤ 3 && !(personStop.contains p))

/-- The person candidates actually stored (`people[:3]`). -/
def peopleCandidates (msg : Str) : List Str := (peopleFiltered msg).take 3

/-- The fixed emotion vocabulary, in source order. -/
def emotionsVocab : List Str :=
  [codes "happy", codes "sad", codes "angry", codes "excited", codes "anxious",
   codes "calm", codes "frustrated", codes "grateful", codes "worried", codes "content"]

/-- `found_emotions`: vocabulary words occurring in the lowercased message,
in vocabulary order. -/
def foundEmotions (msg : Str) : List Str :=
  emotionsVocab.filter (fun e => substrB e (lowerStr msg))

/-- The emotion candidates actually stored (`found_emotions[:2]`). -/
def emotionCandidates (msg : Str) : List Str := (foundEmotions msg).take 2

/-- The literal part of each activity template, in source order
(`r'went to (\w+)'`, `r'had (\w+)'`, `r'did (\w+)'`, `r'played (\w+)'`,
`r'watched (\w+)'`). -/
def activityPats : List Str :=
  [codes "went to ", codes "had ", codes "did ", codes "played ", codes "watched "]

/-- `re.findall` of one activity template over the (already lowercased)
message: at each position, if the literal matches and a nonempty `\w+` run
follows, the run is captured and the scan resumes after it; otherwise the
scan advances one character. -/
def scanTemplate (pat : Str) : Nat → Str → List Str
  | 0, _ => []
  | _, [] => []
  | fuel + 1, c :: cs =>
    if startsWithB pat (c :: cs) then
      let after := (c :: cs).drop pat.length
      let w := after.takeWhile isWordC
      if w.isEmpty then scanTemplate pat fuel cs
      else w :: scanTemplate pat fuel (after.dropWhile isWordC)
    else scanTemplate pat fuel cs

/-- `activities`: all template captures over the lowercased message,
template by template. -/
def foundActivities (msg : Str) : List Str :=
  (activityPats.map (fun p => scanTemplate p ((lowerStr msg).length + 1) (lowerStr msg))).flatten

/-- The activity candidates actually stored (`activities[:2]`). -/
def activityCandidates (msg : Str) : List Str := (foundActivities msg).take 2

/-- Entity-type tag `'Person'`. -/
def tPerson : Str := codes "Person"

/-- Entity-type tag `'Emotion'`. -/
def tEmotion : Str := codes "Emotion"

/-- Entity-type tag `'Activity'`. -/
def tActivity : Str := codes "Activity"

/-- The (entityType, entityName) pairs upserted by one extraction run, in
upsert order: people first, then emotions, then activities, each with its
cap applied. -/
def extractCandidates (msg : Str) : List (Str × Str) :=
  (peopleCandidates msg).map (fun p => (tPerson, p))
    ++ (emotionCandidates msg).map (fun e => (tEmotion, e))
    ++ (activityCandidates msg).map (fun a => (tActivity, a))

/-- One step of the extraction loop: upsert a candidate and append the
returned node's id to the collected id list. -/
def extractStep (profile_id : Str) (now : Nat) (acc : Store × List Nat)
    (c : Str × Str) : Store × List Nat :=
  let r := store_or_update_node acc.1 profile_id c.1 c.2 now
  (r.2, acc.2 ++ [r.1.nid])

/-- `extract_knowledge_from_message` (server.py 292-349): upserts every
candidate in order, collecting the returned node ids, then appends one
`ExtractionLog` with the full message, the collected ids, and an empty edge
list.  The AI response is accepted but not mined, as in the source. -/
def extract_knowledge_from_message (st : Store) (profile_id conversation_id : Str)
    (user_message _ai_response : Str) (now : Nat) : Store :=
  let res := (extractCandidates user_message).foldl (extractStep profile_id now) (st, [])
  let lg : ExtractionLog :=
    { profileId := profile_id, conversationId := conversation_id,
      messageContent := user_message, extractedNodes := res.2, extractedEdges := [] }
  { res.1 with logs := res.1.logs ++ [lg] }

/-! ## Context retrieval (`retrieve_knowledge_context`, server.py 250-290) -/

/-- The fetch `db.knowledge_nodes.find({'profileId': ...}).sort('lastMentioned', -1).limit(20)`. -/
def recentNodes (st : Store) (pid : Str) : List KnowledgeNode :=
  (((st.nodes.filter (fun n => n.profileId == pid)).insertionSort
      (fun a b => b.lastMentioned ≤ a.lastMentioned)).take 20)

/-- The fetch `db.knowledge_edges.find({'profileId': ...}).sort('lastUpdated', -1).limit(15)`. -/
def recentEdges (st : Store) (pid : Str) : List KnowledgeEdge :=
  (((st.edges.filter (fun e => e.profileId == pid)).insertionSort
      (fun a b => b.lastUpdated ≤ a.lastUpdated)).take 15)

/-- Join a list of strings with a separator (Python `sep.join`). -/
def joinSep (sep : Str) : List Str → Str
  | [] => []
  | [x] => x
  | x :: y :: t => x ++ sep ++ joinSep sep (y :: t)

/-- The key-entity filter: `[node for node in recent_nodes if node['mentionCount'] > 1][:10]`. -/
def entityClause (ns : List KnowledgeNode) : List KnowledgeNode :=
  (ns.filter (fun n => 1 < n.mentionCount)).take 10

/-- Format one entity as `f"{entityName} ({entityType})"`. -/
def formatEntity (n : KnowledgeNode) : Str :=
  n.entityName ++ codes " (" ++ n.entityType ++ codes ")"

/-- The relationship strings: for the first 5 fetched edges, resolve both
endpoint ids against the fetched node window and format
`f"{source} {relationshipType} {target}"`; unresolved edges are dropped. -/
def relationshipsOf (ns : List KnowledgeNode) (es : List KnowledgeEdge) : List Str :=
  (es.take 5).filterMap (fun e =>
    match ns.find? (fun n => n.nid == e.sourceNodeId),
          ns.find? (fun n => n.nid == e.targetNodeId) with
    | some s, some t =>
      some (s.entityName ++ codes " " ++ e.relationshipType ++ codes " " ++ t.entityName)
    | _, _ => none)

/-- The `context_parts` list built by the source: the key-entity clause when
nonempty, then the connection clause when nonempty. -/
def buildContextParts (ns : List KnowledgeNode) (es : List KnowledgeEdge) : List Str :=
  (let ents := entityClause ns
   if ents.isEmpty then []
   else [codes "Key people/things mentioned: " ++ joinSep (codes ", ") (ents.map formatEntity)])
  ++
  (let rels := relationshipsOf ns es
   if rels.isEmpty then []
   else [codes "Recent connections: " ++ joinSep (codes "; ") rels])

/-- The body of `retrieve_knowledge_context` after the two fetches. -/
def retrieve_context_core (ns : List KnowledgeNode) (es : List KnowledgeEdge) : Str :=
  if ns.isEmpty then codes "No previous context available."
  else
    let parts := buildContextParts ns es
    if parts.isEmpty then codes "No specific context available."
    else joinSep (codes " | ") parts

/-- `retrieve_knowledge_context` (server.py 250-290): the whole body runs
inside `try`, and any raised exception is mapped to the fixed sentinel.
The input is the outcome of the fetches: `.ok` carries the fetched node and
edge lists, `.error` stands for a raised exception. -/
def retrieve_knowledge_context
    (fetched : Except Unit (List KnowledgeNode × List KnowledgeEdge)) : Str :=
  match fetched with
  | .error _ => codes "Context retrieval unavailable."
  | .ok (ns, es) => retrieve_context_core ns es

/-- Context retrieval against the store when the fetches succeed. -/
def retrieve_from_store (st : Store) (pid : Str) : Str :=
  retrieve_knowledge_context (.ok (recentNodes st pid, recentEdges st pid))

/-! ## Helper lemmas -/

theorem isUp_not_sp {c : Nat} (h : isUp c = true) : isSpC c = false := by
  simp [isUp] at h; simp [isSpC]; omega

theorem isLo_not_sp {c : Nat} (h : isLo c = true) : isSpC c = false := by
  simp [isLo] at h; simp [isSpC]; omega

theorem isSpC_not_up {c : Nat} (h : isSpC c = true) : isUp c = false := by
  simp [isSpC] at h; simp [isUp]; omega

theorem lowerChar_sp {c : Nat} (h : isSpC c = true) : lowerChar c = c := by
  rw [lowerChar, isSpC_not_up h]; rfl

theorem lowerChar_idem (c : Nat) : lowerChar (lowerChar c) = lowerChar c := by
  by_cases h : isUp c = true
  · have h' : isUp (c + 32) = false := by simp [isUp] at h ⊢; omega
    simp [lowerChar, h, h']
  · simp at h; simp [lowerChar, h]

theorem startsWithB_exists {n h : Str} (hs : startsWithB n h = true) :
    ∃ t, h = n ++ t := by
  induction n generalizing h with
  | nil => exact ⟨h, rfl⟩
  | cons a as ih =>
    cases h with
    | nil => simp [startsWithB] at hs
    | cons b bs =>
      simp only [startsWithB, Bool.and_eq_true, beq_iff_eq] at hs
      obtain ⟨t, ht⟩ := ih hs.2
      exact ⟨t, by simp [hs.1, ht]⟩

theorem substrB_exists {n h : Str} (hs : substrB n h = true) :
    ∃ pre post, h = pre ++ n ++ post := by
  induction h with
  | nil =>
    simp only [substrB, List.isEmpty_iff] at hs
    exact ⟨[], [], by simp [hs]⟩
  | cons c t ih =>
    simp only [substrB, Bool.or_eq_true] at hs
    rcases hs with hs | hs
    · obtain ⟨r, hr⟩ := startsWithB_exists hs
      exact ⟨[], r, by simp [hr]⟩
    · obtain ⟨pre, post, hp⟩ := ih hs
      exact ⟨c :: pre, post, by simp [hp]⟩

theorem mem_of_substrB {n h : Str} (hs : substrB n h = true) : ∀ c ∈ n, c ∈ h := by
  obtain ⟨pre, post, hp⟩ := substrB_exists hs
  intro c hc
  subst hp
  simp [hc]

/-! ## C1: crisis classification, high-risk dominance -/

/-- C1: a message whose lowercased text contains any high-risk keyword is
classified level "high" with `requires_intervention` and `show_resources`
set; the matched keywords are exactly the high-risk keywords occurring in
the message, in high-tier list order, and no medium- or low-risk keyword is
ever among them. -/
theorem crisis_high_dominates (msg : Str)
    (h : ∃ k ∈ CRISIS_high, substrB k (lowerStr msg) = true) :
    (detect_crisis_level msg).level = "high"
    ∧ (detect_crisis_level msg).requires_intervention = true
    ∧ (detect_crisis_level msg).show_resources = true
    ∧ (detect_crisis_level msg).matched_keywords
        = CRISIS_high.filter (fun k => substrB k (lowerStr msg))
    ∧ ∀ k ∈ (detect_crisis_level msg).matched_keywords,
        k ∈ CRISIS_high ∧ k ∉ CRISIS_medium ∧ k ∉ CRISIS_low := by
  obtain ⟨k, hk, hsub⟩ := h
  have hmem : k ∈ CRISIS_high.filter (fun k => substrB k (lowerStr msg)) :=
    List.mem_filter.mpr ⟨hk, hsub⟩
  have hne : (CRISIS_high.filter (fun k => substrB k (lowerStr msg))).isEmpty = false := by
    rcases hfe : CRISIS_high.filter (fun k => substrB k (lowerStr msg)) with _ | ⟨a, l⟩
    · rw [hfe] at hmem; simp at hmem
    · rfl
  have hdisj : ∀ x ∈ CRISIS_high, x ∉ CRISIS_medium ∧ x ∉ CRISIS_low := by decide
  have hgoal : detect_crisis_level msg =
      { level := "high",
        matched_keywords := CRISIS_high.filter (fun k => substrB k (lowerStr msg)),
        requires_intervention := true, show_resources := true } := by
    simp only [detect_crisis_level, hne, Bool.false_eq_true, if_false]
  rw [hgoal]
  refine ⟨rfl, rfl, rfl, rfl, ?_⟩
  intro k' hk'
  have := (List.mem_filter.mp hk').1
  exact ⟨this, (hdisj k' this).1, (hdisj k' this).2⟩

/-- Witness for C1 at the message "I want to die today but also feel calm". -/
theorem crisis_high_dominates_witness :
    (detect_crisis_level (codes "I want to die today but also feel calm")).level = "high"
    ∧ (detect_crisis_level (codes "I want to die today but also feel calm")).requires_intervention = true
    ∧ (detect_crisis_level (codes "I want to die today but also feel calm")).show_resources = true
    ∧ (detect_crisis_level (codes "I want to die today but also feel calm")).matched_keywords
        = CRISIS_high.filter
            (fun k => substrB k (lowerStr (codes "I want to die today but also feel calm")))
    ∧ ∀ k ∈ (detect_crisis_level (codes "I want to die today but also feel calm")).matched_keywords,
        k ∈ CRISIS_high ∧ k ∉ CRISIS_medium ∧ k ∉ CRISIS_low :=
  crisis_high_dominates (codes "I want to die today but also feel calm")
    ⟨codes "want to die", by decide, by decide⟩

/-! ## C2: streak transition on journal creation -/

/-- C2: the full case analysis of `update_streak`: first entry starts a
streak of 1 and counts a journal day; same-day entry changes nothing;
a consecutive day increments the streak; a gap (or a back-dated entry)
resets the streak to 1; every mutating branch sets `lastJournalDate` to the
new date, adds one journal day, and raises `longestStreak` to the maximum
of the old value and the new current streak. -/
theorem streak_transition (p : UserProfile) (today : Int) :
    (p.lastJournalDate = none →
      (update_streak p today).currentStreak = 1
      ∧ (update_streak p today).totalJournalDays = p.totalJournalDays + 1
      ∧ (update_streak p today).lastJournalDate = some today
      ∧ (update_streak p today).longestStreak
          = max p.longestStreak (update_streak p today).currentStreak)
    ∧ (∀ last, p.lastJournalDate = some last → today - last = 0 →
        update_streak p today = p)
    ∧ (∀ last, p.lastJournalDate = some last → today - last = 1 →
        (update_streak p today).currentStreak = p.currentStreak + 1
        ∧ (update_streak p today).totalJournalDays = p.totalJournalDays + 1
        ∧ (update_streak p today).lastJournalDate = some today
        ∧ (update_streak p today).longestStreak
            = max p.longestStreak (update_streak p today).currentStreak)
    ∧ (∀ last, p.lastJournalDate = some last → (1 < today - last ∨ today - last < 0) →
        (update_streak p today).currentStreak = 1
        ∧ (update_streak p today).totalJournalDays = p.totalJournalDays + 1
        ∧ (update_streak p today).lastJournalDate = some today
        ∧ (update_streak p today).longestStreak
            = max p.longestStreak (update_streak p today).currentStreak) := by
  refine ⟨?_, ?_, ?_, ?_⟩
  · intro h
    simp [update_streak, h, Nat.max_comm]
  · intro last h hdiff
    simp [update_streak, h, hdiff]
  · intro last h hdiff
    have h0 : today - last ≠ 0 := by omega
    simp [update_streak, h, hdiff, h0, Nat.max_comm]
  · intro last h hdiff
    have h0 : today - last ≠ 0 := by omega
    have h1 : today - last ≠ 1 := by omega
    simp [update_streak, h, h0, h1, Nat.max_comm]

/-- Witness for C2, exercising all four branches at concrete profiles. -/
theorem streak_transition_witness :
    (update_streak ⟨0, 0, 0, none⟩ 10).currentStreak = 1
    ∧ update_streak ⟨2, 5, 7, some 10⟩ 10 = ⟨2, 5, 7, some 10⟩
    ∧ (update_streak ⟨2, 5, 7, some 10⟩ 11).currentStreak = 3
    ∧ (update_streak ⟨2, 5, 7, some 10⟩ 13).currentStreak = 1
    ∧ (update_streak ⟨2, 5, 7, some 10⟩ 8).currentStreak = 1 :=
  ⟨((streak_transition ⟨0, 0, 0, none⟩ 10).1 rfl).1,
   (streak_transition ⟨2, 5, 7, some 10⟩ 10).2.1 10 rfl (by decide),
   ((streak_transition ⟨2, 5, 7, some 10⟩ 11).2.2.1 10 rfl (by decide)).1,
   ((streak_transition ⟨2, 5, 7, some 10⟩ 13).2.2.2 10 rfl (by decide)).1,
   ((streak_transition ⟨2, 5, 7, some 10⟩ 8).2.2.2 10 rfl (by decide)).1⟩

/-! ## C5: lazy streak decay on profile read -/

/-- C5: reading the profile when more than one day has passed since
`lastJournalDate` resets `currentStreak` to 0 and touches nothing else;
reading within one day, or with no recorded date and a zero streak, changes
nothing; the recomputation is idempotent. -/
theorem lazy_streak_decay (p : UserProfile) (today : Int) :
    (∀ d, p.lastJournalDate = some d → 1 < today - d →
        (get_profile p today).currentStreak = 0
        ∧ (get_profile p today).longestStreak = p.longestStreak
        ∧ (get_profile p today).totalJournalDays = p.totalJournalDays
        ∧ (get_profile p today).lastJournalDate = p.lastJournalDate)
    ∧ (∀ d, p.lastJournalDate = some d → today - d ≤ 1 → get_profile p today = p)
    ∧ (p.lastJournalDate = none → p.currentStreak = 0 → get_profile p today = p)
    ∧ get_profile (get_profile p today) today = get_profile p today := by
  refine ⟨?_, ?_, ?_, ?_⟩
  · intro d hd hgt
    have hc : calculate_streak p today = 0 := by simp [calculate_streak, hd, hgt]
    by_cases h0 : p.currentStreak = 0
    · simp [get_profile, hc, h0]
    · simp [get_profile, hc, Ne.symm h0]
  · intro d hd hle
    have hgt : ¬ (1 < today - d) := by omega
    have hc : calculate_streak p today = p.currentStreak := by
      simp [calculate_streak, hd, hgt]
    simp [get_profile, hc]
  · intro hd h0
    have hc : calculate_streak p today = 0 := by simp [calculate_streak, hd]
    simp [get_profile, hc, h0]
  · by_cases hc : calculate_streak p today = p.currentStreak
    · simp [get_profile, hc]
    · have h1 : get_profile p today = { p with currentStreak := calculate_streak p today } := by
        simp [get_profile, hc]
      have h2 : calculate_streak { p with currentStreak := calculate_streak p today } today
          = calculate_streak p today := by
        rcases hj : p.lastJournalDate with _ | d
        · simp [calculate_streak, hj]
        · by_cases hgt : 1 < today - d
          · simp [calculate_streak, hj, hgt]
          · exfalso
            have : calculate_streak p today = p.currentStreak := by
              simp [calculate_streak, hj, hgt]
            exact hc this
      rw [h1, get_profile, h2]
      simp

/-- Witness for C5, exercising decay, the no-op branches and idempotence at
concrete profiles. -/
theorem lazy_streak_decay_witness :
    (get_profile ⟨4, 6, 9, some 10⟩ 13).currentStreak = 0
    ∧ (get_profile ⟨4, 6, 9, some 10⟩ 13).longestStreak = 6
    ∧ get_profile ⟨4, 6, 9, some 10⟩ 11 = ⟨4, 6, 9, some 10⟩
    ∧ get_profile ⟨0, 6, 9, none⟩ 13 = ⟨0, 6, 9, none⟩
    ∧ get_profile (get_profile ⟨4, 6, 9, some 10⟩ 13) 13
        = get_profile ⟨4, 6, 9, some 10⟩ 13 :=
  ⟨((lazy_streak_decay ⟨4, 6, 9, some 10⟩ 13).1 10 rfl (by decide)).1,
   ((lazy_streak_decay ⟨4, 6, 9, some 10⟩ 13).1 10 rfl (by decide)).2.1,
   (lazy_streak_decay ⟨4, 6, 9, some 10⟩ 11).2.1 10 rfl (by decide),
   (lazy_streak_decay ⟨0, 6, 9, none⟩ 13).2.2.1 rfl rfl,
   (lazy_streak_decay ⟨4, 6, 9, some 10⟩ 13).2.2.2⟩

/-! ## C3 and C9: upsert semantics -/

theorem filter_key_update (pid et en : Str) (l : List KnowledgeNode) (k t2 : Nat) :
    (l.map (fun n => if n.nid == k then
        { n with lastMentioned := t2, mentionCount := n.mentionCount + 1 } else n)).filter
      (keyMatch pid et en)
    = (l.filter (keyMatch pid et en)).map (fun n => if n.nid == k then
        { n with lastMentioned := t2, mentionCount := n.mentionCount + 1 } else n) := by
  rw [List.filter_map]
  congr 1
  apply List.filter_congr
  intro a _
  by_cases hn : (a.nid == k) = true
  · simp [Function.comp, hn, keyMatch]
  · simp [Function.comp, hn]

/-- C3: upserting the same natural key twice starting from a store without
that key leaves exactly one stored node for the key, with
`mentionCount = 2`, `lastMentioned` at the second call's time, and the key
fields and creation time unchanged. -/
theorem upsert_key_idempotent (st : Store) (pid et en : Str) (t1 t2 : Nat)
    (h : st.nodes.find? (keyMatch pid et en) = none) :
    ∃ n, ((store_or_update_node
            (store_or_update_node st pid et en t1).2 pid et en t2).2.nodes.filter
            (keyMatch pid et en)) = [n]
      ∧ n.mentionCount = 2 ∧ n.lastMentioned = t2 ∧ n.firstMentioned = t1
      ∧ n.profileId = pid ∧ n.entityType = et ∧ n.entityName = en := by
  have h1 : store_or_update_node st pid et en t1
      = (⟨st.nextId, pid, et, en, t1, t1, 1⟩,
         { st with nodes := st.nodes ++ [⟨st.nextId, pid, et, en, t1, t1, 1⟩],
                   nextId := st.nextId + 1 }) := by
    simp [store_or_update_node, h]
  have h2 : (st.nodes ++ [(⟨st.nextId, pid, et, en, t1, t1, 1⟩ : KnowledgeNode)]).find?
      (keyMatch pid et en) = some ⟨st.nextId, pid, et, en, t1, t1, 1⟩ := by
    rw [List.find?_append, h]
    simp [keyMatch]
  rw [h1]
  simp only [store_or_update_node, h2]
  rw [filter_key_update]
  rw [List.filter_append, List.filter_eq_nil_iff.mpr (List.find?_eq_none.mp h)]
  have h3 : ([(⟨st.nextId, pid, et, en, t1, t1, 1⟩ : KnowledgeNode)]).filter
      (keyMatch pid et en) = [⟨st.nextId, pid, et, en, t1, t1, 1⟩] := by
    simp [keyMatch]
  rw [List.nil_append, h3]
  exact ⟨⟨st.nextId, pid, et, en, t1, t2, 2⟩, by simp, rfl, rfl, rfl, rfl, rfl, rfl⟩

/-- Witness for C3: two upserts of ("p1", Person, "Sarah") into the empty
store at times 5 and 9. -/
theorem upsert_key_idempotent_witness :
    ∃ n, ((store_or_update_node
            (store_or_update_node ⟨[], [], [], 0⟩ (codes "p1") tPerson (codes "Sarah") 5).2
            (codes "p1") tPerson (codes "Sarah") 9).2.nodes.filter
            (keyMatch (codes "p1") tPerson (codes "Sarah"))) = [n]
      ∧ n.mentionCount = 2 ∧ n.lastMentioned = 9 ∧ n.firstMentioned = 5
      ∧ n.profileId = codes "p1" ∧ n.entityType = tPerson ∧ n.entityName = codes "Sarah" :=
  upsert_key_idempotent ⟨[], [], [], 0⟩ (codes "p1") tPerson (codes "Sarah") 5 9 rfl

/-- C9 (implicit): on the update path `store_or_update_node` returns the
document fetched before the update, whose `mentionCount` is one less than
the stored value after the call; only on the creation path does the
returned node coincide with the stored record. -/
theorem upsert_returns_prefetched (st : Store) (pid et en : Str) (now : Nat)
    (n0 : KnowledgeNode) (h : st.nodes.find? (keyMatch pid et en) = some n0) :
    (store_or_update_node st pid et en now).1 = n0
    ∧ (∃ n1 ∈ (store_or_update_node st pid et en now).2.nodes,
        n1.nid = n0.nid ∧ n1.mentionCount = n0.mentionCount + 1 ∧ n1.lastMentioned = now
        ∧ n1.profileId = n0.profileId ∧ n1.entityType = n0.entityType
        ∧ n1.entityName = n0.entityName
        ∧ (store_or_update_node st pid et en now).1.mentionCount + 1 = n1.mentionCount)
    ∧ (∀ st2 : Store, st2.nodes.find? (keyMatch pid et en) = none →
        (store_or_update_node st2 pid et en now).1
            ∈ (store_or_update_node st2 pid et en now).2.nodes
        ∧ (store_or_update_node st2 pid et en now).1.mentionCount = 1
        ∧ (store_or_update_node st2 pid et en now).1.firstMentioned = now
        ∧ (store_or_update_node st2 pid et en now).1.lastMentioned = now) := by
  refine ⟨?_, ?_, ?_⟩
  · simp [store_or_update_node, h]
  · refine ⟨{ n0 with lastMentioned := now, mentionCount := n0.mentionCount + 1 }, ?_, ?_⟩
    · simp only [store_or_update_node, h]
      have hm : n0 ∈ st.nodes := List.mem_of_find?_eq_some h
      have : (fun n => if n.nid == n0.nid then
          ({ n with lastMentioned := now, mentionCount := n.mentionCount + 1 } : KnowledgeNode)
          else n) n0
          = { n0 with lastMentioned := now, mentionCount := n0.mentionCount + 1 } := by
        simp
      exact this ▸ List.mem_map_of_mem _ hm
    · simp [store_or_update_node, h]
  · intro st2 h2
    simp [store_or_update_node, h2]

/-- Witness for C9 at a store holding one matching node. -/
theorem upsert_returns_prefetched_witness :
    (store_or_update_node ⟨[⟨0, codes "p1", tPerson, codes "Sarah", 1, 1, 1⟩], [], [], 1⟩
        (codes "p1") tPerson (codes "Sarah") 7).1
      = ⟨0, codes "p1", tPerson, codes "Sarah", 1, 1, 1⟩
    ∧ (∃ n1 ∈ (store_or_update_node ⟨[⟨0, codes "p1", tPerson, codes "Sarah", 1, 1, 1⟩], [], [], 1⟩
        (codes "p1") tPerson (codes "Sarah") 7).2.nodes,
        n1.nid = (⟨0, codes "p1", tPerson, codes "Sarah", 1, 1, 1⟩ : KnowledgeNode).nid
        ∧ n1.mentionCount
            = (⟨0, codes "p1", tPerson, codes "Sarah", 1, 1, 1⟩ : KnowledgeNode).mentionCount + 1
        ∧ n1.lastMentioned = 7
        ∧ n1.profileId = (⟨0, codes "p1", tPerson, codes "Sarah", 1, 1, 1⟩ : KnowledgeNode).profileId
        ∧ n1.entityType = (⟨0, codes "p1", tPerson, codes "Sarah", 1, 1, 1⟩ : KnowledgeNode).entityType
        ∧ n1.entityName = (⟨0, codes "p1", tPerson, codes "Sarah", 1, 1, 1⟩ : KnowledgeNode).entityName
        ∧ (store_or_update_node ⟨[⟨0, codes "p1", tPerson, codes "Sarah", 1, 1, 1⟩], [], [], 1⟩
            (codes "p1") tPerson (codes "Sarah") 7).1.mentionCount + 1 = n1.mentionCount)
    ∧ (∀ st2 : Store, st2.nodes.find? (keyMatch (codes "p1") tPerson (codes "Sarah")) = none →
        (store_or_update_node st2 (codes "p1") tPerson (codes "Sarah") 7).1
            ∈ (store_or_update_node st2 (codes "p1") tPerson (codes "Sarah") 7).2.nodes
        ∧ (store_or_update_node st2 (codes "p1") tPerson (codes "Sarah") 7).1.mentionCount = 1
        ∧ (store_or_update_node st2 (codes "p1") tPerson (codes "Sarah") 7).1.firstMentioned = 7
        ∧ (store_or_update_node st2 (codes "p1") tPerson (codes "Sarah") 7).1.lastMentioned = 7) :=
  upsert_returns_prefetched ⟨[⟨0, codes "p1", tPerson, codes "Sarah", 1, 1, 1⟩], [], [], 1⟩
    (codes "p1") tPerson (codes "Sarah") 7 ⟨0, codes "p1", tPerson, codes "Sarah", 1, 1, 1⟩
    (by decide)

/-! ## C4: context retrieval sentinels -/

/-- C4: context retrieval maps a raised exception to the fixed
"unavailable" sentinel; a profile with no nodes yields the fixed
"no previous context" sentinel; and a profile with nodes but an empty key
entity clause and an empty connection clause yields the fixed
"no specific context" sentinel. -/
theorem context_sentinels :
    (∀ e : Unit, retrieve_knowledge_context (Except.error e)
        = codes "Context retrieval unavailable.")
    ∧ (∀ (st : Store) (pid : Str), st.nodes.filter (fun n => n.profileId == pid) = [] →
        retrieve_from_store st pid = codes "No previous context available.")
    ∧ (∀ (st : Store) (pid : Str), st.nodes.filter (fun n => n.profileId == pid) ≠ [] →
        (∀ n ∈ recentNodes st pid, ¬ 1 < n.mentionCount) →
        relationshipsOf (recentNodes st pid) (recentEdges st pid) = [] →
        retrieve_from_store st pid = codes "No specific context available.") := by
  refine ⟨fun e => rfl, ?_, ?_⟩
  · intro st pid hfil
    simp [retrieve_from_store, retrieve_knowledge_context, retrieve_context_core,
      recentNodes, hfil]
  · intro st pid hfil hment hrel
    have hlen : (recentNodes st pid).length ≠ 0 := by
      have h1 : (st.nodes.filter (fun n => n.profileId == pid)).length ≠ 0 := by
        simpa [List.length_eq_zero] using hfil
      simp only [recentNodes, List.length_take, List.length_insertionSort]
      omega
    have hne : (recentNodes st pid).isEmpty = false := by
      rcases hns : recentNodes st pid with _ | ⟨a, l⟩
      · rw [hns] at hlen; simp at hlen
      · rfl
    have hents : (recentNodes st pid).filter (fun n => 1 < n.mentionCount) = [] := by
      apply List.filter_eq_nil_iff.mpr
      intro a ha
      simpa using hment a ha
    simp [retrieve_from_store, retrieve_knowledge_context, retrieve_context_core,
      buildContextParts, entityClause, hne, hents, hrel]

/-- Witness for C4: the three sentinels at concrete inputs. -/
theorem context_sentinels_witness :
    retrieve_knowledge_context (Except.error ()) = codes "Context retrieval unavailable."
    ∧ retrieve_from_store ⟨[], [], [], 0⟩ (codes "p1") = codes "No previous context available."
    ∧ retrieve_from_store ⟨[⟨0, codes "p1", tPerson, codes "Sarah", 1, 1, 1⟩], [], [], 1⟩
        (codes "p1") = codes "No specific context available." :=
  ⟨context_sentinels.1 (),
   context_sentinels.2.1 ⟨[], [], [], 0⟩ (codes "p1") rfl,
   context_sentinels.2.2 ⟨[⟨0, codes "p1", tPerson, codes "Sarah", 1, 1, 1⟩], [], [], 1⟩
     (codes "p1") (by decide) (by decide) (by decide)⟩

/-! ## Lemmas about the person-regex scanner -/

theorem takeWhile_all {p : Nat → Bool} :
    ∀ {l : Str}, (∀ a ∈ l, p a = true) → l.takeWhile p = l
  | [], _ => rfl
  | a :: l, h => by
    rw [List.takeWhile_cons_of_pos (h a (by simp)), takeWhile_all (fun x hx => h x (by simp [hx]))]

theorem dropWhile_all {p : Nat → Bool} :
    ∀ {l : Str}, (∀ a ∈ l, p a = true) → l.dropWhile p = []
  | [], _ => rfl
  | a :: l, h => by
    rw [List.dropWhile_cons_of_pos (h a (by simp))]
    exact dropWhile_all (fun x hx => h x (by simp [hx]))

theorem tokShapeB_props {t : Str} (h : tokShapeB t = true) :
    t ≠ [] ∧ ∀ c ∈ t, isSpC c = false := by
  match t with
  | [] => simp [tokShapeB] at h
  | c :: cs =>
    simp only [tokShapeB, Bool.and_eq_true] at h
    refine ⟨by simp, ?_⟩
    intro x hx
    rcases List.mem_cons.mp hx with hx | hx
    · exact hx ▸ isUp_not_sp h.1.1
    · exact isLo_not_sp (List.all_eq_true.mp h.2 x hx)

theorem matchTok_eq {cs t r : Str} (h : matchTok cs = some (t, r)) :
    cs = t ++ r ∧ tokShapeB t = true := by
  match cs with
  | [] => simp [matchTok] at h
  | c :: cs' =>
    by_cases hup : isUp c = true
    · by_cases hemp : (cs'.takeWhile isLo).isEmpty = true
      · simp [matchTok, hup, hemp] at h
      · simp only [matchTok, hup, if_true, hemp, Bool.false_eq_true, if_false,
          Option.some.injEq, Prod.mk.injEq] at h
        obtain ⟨ht, hr⟩ := h
        constructor
        · rw [← ht, ← hr]
          simp [List.takeWhile_append_dropWhile]
        · rw [← ht]
          simp only [tokShapeB, hup, Bool.true_and, Bool.and_eq_true]
          constructor
          · simpa using hemp
          · exact List.all_eq_true.mpr (fun x hx => List.mem_takeWhile_imp hx)
    · simp [matchTok, hup] at h

theorem collectSegs_eq :
    ∀ (fuel : Nat) (r segs : _) (rest : Str), collectSegs fuel r = (segs, rest) →
      r = flatSegs segs ++ rest
      ∧ ∀ s ∈ segs, s.1 ≠ [] ∧ (∀ c ∈ s.1, isSpC c = true) ∧ tokShapeB s.2 = true := by
  intro fuel
  induction fuel with
  | zero =>
    intro r segs rest h
    simp only [collectSegs, Prod.mk.injEq] at h
    rw [← h.1, ← h.2]
    exact ⟨rfl, by simp⟩
  | succ f ih =>
    intro r segs rest h
    by_cases hws : (r.takeWhile isSpC).isEmpty = true
    · simp only [collectSegs, hws, if_true, Prod.mk.injEq] at h
      rw [← h.1, ← h.2]
      exact ⟨rfl, by simp⟩
    · rcases hmt : matchTok (r.dropWhile isSpC) with _ | ⟨t, r2⟩
      · simp only [collectSegs, hws, Bool.false_eq_true, if_false, hmt, Prod.mk.injEq] at h
        rw [← h.1, ← h.2]
        exact ⟨rfl, by simp⟩
      · rcases hrec : collectSegs f r2 with ⟨segs', rest'⟩
        simp only [collectSegs, hws, Bool.false_eq_true, if_false, hmt, hrec,
          Prod.mk.injEq] at h
        obtain ⟨hsegs, hrest⟩ := h
        obtain ⟨hdec, hwf⟩ := ih r2 segs' rest' hrec
        obtain ⟨hsplit, htok⟩ := matchTok_eq hmt
        constructor
        · rw [← hsegs, ← hrest]
          simp only [flatSegs, List.append_assoc]
          rw [← hdec, ← hsplit]
          exact (List.takeWhile_append_dropWhile isSpC r).symm
        · intro s hs
          rw [← hsegs] at hs
          rcases List.mem_cons.mp hs with hs | hs
          · subst hs
            refine ⟨by simpa using hws, ?_, htok⟩
            exact fun c hc => List.mem_takeWhile_imp hc
          · exact hwf s hs

theorem flatSegs_getLast :
    ∀ {segs : List (Str × Str)} {ws t : Str}, segs.getLast? = some (ws, t) →
      flatSegs segs = flatSegs segs.dropLast ++ (ws ++ t) := by
  intro segs
  induction segs with
  | nil => intro ws t h; simp at h
  | cons a rest ih =>
    intro ws t h
    rcases rest with _ | ⟨b, rest'⟩
    · simp only [List.getLast?_singleton, Option.some.injEq] at h
      subst h
      simp [flatSegs]
    · have hlast : (b :: rest').getLast? = some (ws, t) := by
        rw [← h]
        exact (List.getLast?_cons_cons ..).symm
      have hrec := ih hlast
      have hdl : (a :: b :: rest').dropLast = a :: (b :: rest').dropLast := rfl
      rw [hdl]
      simp only [flatSegs] at hrec ⊢
      rw [hrec]
      simp [List.append_assoc]

theorem splitWsF_sp {ws : Str} (hws : ∀ c ∈ ws, isSpC c = true) (fuel : Nat) (s : Str) :
    splitWsF fuel (ws ++ s) = splitWsF fuel s := by
  cases fuel with
  | zero => rfl
  | succ f =>
    simp only [splitWsF, List.dropWhile_append]
    rw [dropWhile_all hws]
    simp

theorem flatSegs_length :
    ∀ {segs : List (Str × Str)}, (∀ s ∈ segs, s.1 ≠ [] ∧ s.2 ≠ []) →
      segs.length ≤ (flatSegs segs).length := by
  intro segs
  induction segs with
  | nil => intro; simp [flatSegs]
  | cons a rest ih =>
    intro h
    have ha := h a (by simp)
    have h1 : 1 ≤ a.1.length := by
      rcases hl : a.1 with _ | _
      · exact absurd hl ha.1
      · simp
    have h2 : 1 ≤ a.2.length := by
      rcases hl : a.2 with _ | _
      · exact absurd hl ha.2
      · simp
    have := ih (fun s hs => h s (by simp [hs]))
    simp only [flatSegs, List.length_cons, List.length_append]
    omega

theorem splitWsF_nil (fuel : Nat) : splitWsF fuel [] = [] := by
  cases fuel <;> simp [splitWsF]

theorem splitWsF_succ_cons (f : Nat) (s : Str) (c : Nat) (t : Str)
    (h : s.dropWhile isSpC = c :: t) :
    splitWsF (f + 1) s = ((c :: t).takeWhile (fun x => !(isSpC x)))
      :: splitWsF f ((c :: t).dropWhile (fun x => !(isSpC x))) := by
  simp only [splitWsF, h]

theorem splitWsF_word (t1 X : Str) (ht1 : t1 ≠ []) (hns : ∀ c ∈ t1, isSpC c = false)
    (hX : X = [] ∨ ∃ x0 X', X = x0 :: X' ∧ isSpC x0 = true) (f : Nat) :
    splitWsF (f + 1) (t1 ++ X) = t1 :: splitWsF f X := by
  rcases t1 with _ | ⟨c, t'⟩
  · exact absurd rfl ht1
  have hc : isSpC c = false := hns c (by simp)
  have hXtake : X.takeWhile (fun x => !(isSpC x)) = [] := by
    rcases hX with hX | ⟨x0, X', hX, hx0⟩
    · simp [hX]
    · rw [hX, List.takeWhile_cons_of_neg (by simp [hx0])]
  have hXdrop : X.dropWhile (fun x => !(isSpC x)) = X := by
    rcases hX with hX | ⟨x0, X', hX, hx0⟩
    · simp [hX]
    · rw [hX, List.dropWhile_cons_of_neg (by simp [hx0])]
  have hd : ((c :: t') ++ X).dropWhile isSpC = c :: (t' ++ X) := by
    rw [List.cons_append, List.dropWhile_cons_of_neg (by simp [hc])]
  rw [splitWsF_succ_cons f ((c :: t') ++ X) c (t' ++ X) hd]
  have htk : List.takeWhile (fun x => !(isSpC x)) (c :: (t' ++ X)) = c :: t' := by
    rw [List.takeWhile_cons_of_pos (by simp [hc]),
      List.takeWhile_append_of_pos (fun a ha => by simp [hns a (by simp [ha])]),
      hXtake, List.append_nil]
  have hdr : List.dropWhile (fun x => !(isSpC x)) (c :: (t' ++ X)) = X := by
    rw [List.dropWhile_cons_of_pos (by simp [hc]),
      List.dropWhile_append_of_pos (fun a ha => by simp [hns a (by simp [ha])]),
      hXdrop]
  rw [htk, hdr]

theorem splitWs_structure :
    ∀ (segs : List (Str × Str)) (fuel : Nat) (t1 : Str),
      t1 ≠ [] → (∀ c ∈ t1, isSpC c = false) →
      (∀ s ∈ segs, s.1 ≠ [] ∧ (∀ c ∈ s.1, isSpC c = true)
        ∧ s.2 ≠ [] ∧ (∀ c ∈ s.2, isSpC c = false)) →
      segs.length < fuel →
      splitWsF fuel (t1 ++ flatSegs segs) = t1 :: segs.map Prod.snd := by
  intro segs
  induction segs with
  | nil =>
    intro fuel t1 ht1 hns _ hfuel
    rcases fuel with _ | f
    · omega
    rw [flatSegs, List.append_nil]
    have := splitWsF_word t1 [] ht1 hns (Or.inl rfl) f
    rw [List.append_nil] at this
    rw [this, splitWsF_nil]
    rfl
  | cons seg rest ih =>
    intro fuel t1 ht1 hns hwf hfuel
    rcases fuel with _ | f
    · omega
    obtain ⟨ws, tok⟩ := seg
    obtain ⟨hws_ne, hws_sp, ht_ne, ht_ns⟩ := hwf (ws, tok) (by simp)
    rcases ws with _ | ⟨w0, ws'⟩
    · exact absurd rfl hws_ne
    have hw0 : isSpC w0 = true := hws_sp w0 (by simp)
    have hflat : flatSegs ((w0 :: ws', tok) :: rest)
        = (w0 :: ws') ++ (tok ++ flatSegs rest) := by
      simp [flatSegs, List.append_assoc]
    rw [hflat]
    rw [splitWsF_word t1 ((w0 :: ws') ++ (tok ++ flatSegs rest)) ht1 hns
      (Or.inr ⟨w0, ws' ++ (tok ++ flatSegs rest), by simp, hw0⟩) f]
    rw [splitWsF_sp hws_sp f (tok ++ flatSegs rest)]
    rw [ih f tok ht_ne ht_ns (fun s hs => hwf s (by simp [hs]))
      (by simpa using Nat.lt_of_succ_lt_succ hfuel)]
    simp

theorem segsWF_of_collect {segs : List (Str × Str)}
    (h : ∀ s ∈ segs, s.1 ≠ [] ∧ (∀ c ∈ s.1, isSpC c = true) ∧ tokShapeB s.2 = true) :
    ∀ s ∈ segs, s.1 ≠ [] ∧ (∀ c ∈ s.1, isSpC c = true)
      ∧ s.2 ≠ [] ∧ (∀ c ∈ s.2, isSpC c = false) :=
  fun s hs => ⟨(h s hs).1, (h s hs).2.1,
    (tokShapeB_props (h s hs).2.2).1, (tokShapeB_props (h s hs).2.2).2⟩

theorem splitWs_of_match (t1 : Str) (segs : List (Str × Str))
    (ht1 : tokShapeB t1 = true)
    (hwf : ∀ s ∈ segs, s.1 ≠ [] ∧ (∀ c ∈ s.1, isSpC c = true) ∧ tokShapeB s.2 = true) :
    splitWs (t1 ++ flatSegs segs) = t1 :: segs.map Prod.snd := by
  have hprops := tokShapeB_props ht1
  have hwf' := segsWF_of_collect hwf
  have h1 : segs.length ≤ (flatSegs segs).length :=
    flatSegs_length (fun s hs => ⟨(hwf' s hs).1, (hwf' s hs).2.2.1⟩)
  have h2 : 1 ≤ t1.length := by
    rcases hl : t1 with _ | _
    · exact absurd hl hprops.1
    · simp
  rw [splitWs]
  apply splitWs_structure segs _ t1 hprops.1 hprops.2 hwf'
  simp only [List.length_append]
  omega

theorem tryMatchAt_eq {cs m rest : Str} (h : tryMatchAt cs = some (m, rest)) :
    cs = m ++ rest ∧ splitWs m ≠ [] ∧ (∀ t ∈ splitWs m, tokShapeB t = true) := by
  rcases hmt : matchTok cs with _ | ⟨t1, r1⟩
  · simp [tryMatchAt, hmt] at h
  rcases hcol : collectSegs r1.length r1 with ⟨segs, rest0⟩
  obtain ⟨hdec1, htok1⟩ := matchTok_eq hmt
  obtain ⟨hdec2, hwf⟩ := collectSegs_eq r1.length r1 segs rest0 hcol
  simp only [tryMatchAt, hmt, hcol] at h
  by_cases hb : boundaryOKB rest0 = true
  · simp only [hb, if_true, Option.some.injEq, Prod.mk.injEq] at h
    obtain ⟨hm, hrest⟩ := h
    subst hm
    subst hrest
    have hsplit := splitWs_of_match t1 segs htok1 hwf
    refine ⟨?_, ?_, ?_⟩
    · rw [hdec1, hdec2]
      simp [List.append_assoc]
    · rw [hsplit]; simp
    · rw [hsplit]
      intro t ht
      rcases List.mem_cons.mp ht with ht | ht
      · exact ht ▸ htok1
      · obtain ⟨s, hs, hst⟩ := List.mem_map.mp ht
        exact hst ▸ (hwf s hs).2.2
  · rcases hlast : segs.getLast? with _ | ⟨ws, t⟩
    · simp [hb, hlast] at h
    simp only [hb, Bool.false_eq_true, if_false, hlast, Option.some.injEq,
      Prod.mk.injEq] at h
    obtain ⟨hm, hrest⟩ := h
    subst hm
    subst hrest
    have hwfdl : ∀ s ∈ segs.dropLast, s.1 ≠ [] ∧ (∀ c ∈ s.1, isSpC c = true)
        ∧ tokShapeB s.2 = true :=
      fun s hs => hwf s ((List.dropLast_sublist segs).subset hs)
    have hsplit := splitWs_of_match t1 segs.dropLast htok1 hwfdl
    refine ⟨?_, ?_, ?_⟩
    · rw [hdec1, hdec2, flatSegs_getLast hlast]
      simp [List.append_assoc]
    · rw [hsplit]; simp
    · rw [hsplit]
      intro t' ht'
      rcases List.mem_cons.mp ht' with ht' | ht'
      · exact ht' ▸ htok1
      · obtain ⟨s, hs, hst⟩ := List.mem_map.mp ht'
        exact hst ▸ (hwfdl s hs).2.2

theorem scanP_sound :
    ∀ (fuel : Nat) (atB : Bool) (cs : Str), ∀ m ∈ scanP fuel atB cs,
      (∃ pre post, cs = pre ++ m ++ post)
      ∧ splitWs m ≠ [] ∧ (∀ t ∈ splitWs m, tokShapeB t = true) := by
  intro fuel
  induction fuel with
  | zero => intro atB cs m hm; simp [scanP] at hm
  | succ f ih =>
    intro atB cs m hm
    rcases cs with _ | ⟨c, cs'⟩
    · simp [scanP] at hm
    by_cases hatB : atB = true
    · subst hatB
      rcases htm : tryMatchAt (c :: cs') with _ | ⟨m0, rest⟩
      · simp only [scanP, htm, if_true] at hm
        obtain ⟨⟨pre, post, hdec⟩, hsh⟩ := ih _ cs' m hm
        exact ⟨⟨c :: pre, post, by simp [hdec]⟩, hsh⟩
      · simp only [scanP, htm, if_true] at hm
        obtain ⟨hdec0, hne0, hsh0⟩ := tryMatchAt_eq htm
        rcases List.mem_cons.mp hm with hm | hm
        · subst hm
          exact ⟨⟨[], rest, by simp [hdec0]⟩, hne0, hsh0⟩
        · obtain ⟨⟨pre, post, hdec⟩, hsh⟩ := ih false rest m hm
          refine ⟨⟨m0 ++ pre, post, ?_⟩, hsh⟩
          rw [hdec0, hdec]
          simp [List.append_assoc]
    · replace hatB : atB = false := by simpa using hatB
      subst hatB
      simp only [scanP, Bool.false_eq_true, if_false] at hm
      obtain ⟨⟨pre, post, hdec⟩, hsh⟩ := ih _ cs' m hm
      exact ⟨⟨c :: pre, post, by simp [hdec]⟩, hsh⟩

theorem scanP_ws :
    ∀ (fuel : Nat) (atB : Bool) (cs : Str),
      (∀ c ∈ cs, isSpC c = true) → scanP fuel atB cs = [] := by
  intro fuel
  induction fuel with
  | zero => intro atB cs _; simp [scanP]
  | succ f ih =>
    intro atB cs hsp
    rcases cs with _ | ⟨c, cs'⟩
    · simp [scanP]
    have hc : isSpC c = true := hsp c (by simp)
    have htm : tryMatchAt (c :: cs') = none := by
      simp [tryMatchAt, matchTok, isSpC_not_up hc]
    have hrec := ih (!(isWordC c)) cs' (fun x hx => hsp x (by simp [hx]))
    by_cases hatB : atB = true
    · subst hatB
      simp only [scanP, htm, if_true]
      exact hrec
    · replace hatB : atB = false := by simpa using hatB
      subst hatB
      simp only [scanP, Bool.false_eq_true, if_false]
      exact hrec

/-! ## C6: person candidate extraction -/

/-- C6: the stored person candidates are at most 3, kept in scan order from
the matches of the person regex; every candidate occurs verbatim in the
message, consists of 1 to 3 whitespace-separated tokens each of shape
`[A-Z][a-z]+`, and is not a stopword; and the extraction pipeline upserts
exactly these candidates under entity type Person. -/
theorem person_extraction_exact (msg : Str) :
    (peopleCandidates msg).length ≤ 3
    ∧ (peopleCandidates msg).Sublist (reFindAllPeople msg)
    ∧ (∀ p ∈ peopleCandidates msg,
        (∃ pre post, msg = pre ++ p ++ post)
        ∧ splitWs p ≠ [] ∧ (splitWs p).length ≤ 3
        ∧ (∀ t ∈ splitWs p, tokShapeB t = true)
        ∧ p ∉ personStop)
    ∧ (extractCandidates msg).filter (fun c => c.1 == tPerson)
        = (peopleCandidates msg).map (fun p => (tPerson, p)) := by
  refine ⟨?_, ?_, ?_, ?_⟩
  · simp only [peopleCandidates, List.length_take]
    exact Nat.min_le_left _ _
  · exact (List.take_sublist 3 (peopleFiltered msg)).trans
      (List.filter_sublist (reFindAllPeople msg))
  · intro p hp
    have hpf : p ∈ peopleFiltered msg := List.mem_of_mem_take hp
    obtain ⟨hscan, hpred⟩ := List.mem_filter.mp hpf
    have hsound := scanP_sound (msg.length + 1) true msg p hscan
    simp only [Bool.and_eq_true, decide_eq_true_eq, Bool.not_eq_true'] at hpred
    refine ⟨hsound.1, hsound.2.1, hpred.1, hsound.2.2, ?_⟩
    intro hmem
    have : personStop.contains p = true := List.elem_eq_true_of_mem hmem
    rw [hpred.2] at this
    cases this
  · rw [extractCandidates, List.filter_append, List.filter_append]
    have hA : ((peopleCandidates msg).map (fun p => (tPerson, p))).filter
        (fun c => c.1 == tPerson)
        = (peopleCandidates msg).map (fun p => (tPerson, p)) := by
      apply List.filter_eq_self.mpr
      intro a ha
      obtain ⟨p, _, hpa⟩ := List.mem_map.mp ha
      rw [← hpa]
      simp
    have hB : ((emotionCandidates msg).map (fun e => (tEmotion, e))).filter
        (fun c => c.1 == tPerson) = [] := by
      apply List.filter_eq_nil_iff.mpr
      intro a ha
      obtain ⟨e, _, hea⟩ := List.mem_map.mp ha
      rw [← hea]
      exact (by decide : ¬(tEmotion == tPerson) = true)
    have hC : ((activityCandidates msg).map (fun a => (tActivity, a))).filter
        (fun c => c.1 == tPerson) = [] := by
      apply List.filter_eq_nil_iff.mpr
      intro a ha
      obtain ⟨e, _, hea⟩ := List.mem_map.mp ha
      rw [← hea]
      exact (by decide : ¬(tActivity == tPerson) = true)
    rw [hA, hB, hC, List.append_nil, List.append_nil]

/-- Witness for C6 at a concrete message: "Sarah Jane" is extracted as a
person candidate and has the claimed shape. -/
theorem person_extraction_exact_witness :
    (∃ pre post, codes "I had lunch with Sarah Jane and felt happy"
        = pre ++ codes "Sarah Jane" ++ post)
    ∧ splitWs (codes "Sarah Jane") ≠ []
    ∧ (splitWs (codes "Sarah Jane")).length ≤ 3
    ∧ (∀ t ∈ splitWs (codes "Sarah Jane"), tokShapeB t = true)
    ∧ codes "Sarah Jane" ∉ personStop := by
  have h := (person_extraction_exact (codes "I had lunch with Sarah Jane and felt happy")).2.2.1
    (codes "Sarah Jane") (by decide)
  exact h

/-! ## C8: emotion candidate extraction -/

/-- C8: the emotion candidates are exactly the fixed-vocabulary words
occurring case-insensitively as substrings of the message, listed in
vocabulary order (not appearance order), truncated to the first 2; the
pipeline upserts exactly these candidates under entity type Emotion. -/
theorem emotion_extraction_exact (msg : Str) :
    (emotionCandidates msg).length ≤ 2
    ∧ (∀ e, e ∈ foundEmotions msg ↔ e ∈ emotionsVocab ∧ substrB e (lowerStr msg) = true)
    ∧ (foundEmotions msg).Sublist emotionsVocab
    ∧ foundEmotions msg = emotionCandidates msg ++ (foundEmotions msg).drop 2
    ∧ (extractCandidates msg).filter (fun c => c.1 == tEmotion)
        = (emotionCandidates msg).map (fun e => (tEmotion, e)) := by
  refine ⟨?_, ?_, ?_, ?_, ?_⟩
  · simp only [emotionCandidates, List.length_take]
    exact Nat.min_le_left _ _
  · intro e
    exact List.mem_filter
  · exact List.filter_sublist emotionsVocab
  · exact (List.take_append_drop 2 (foundEmotions msg)).symm
  · rw [extractCandidates, List.filter_append, List.filter_append]
    have hA : ((peopleCandidates msg).map (fun p => (tPerson, p))).filter
        (fun c => c.1 == tEmotion) = [] := by
      apply List.filter_eq_nil_iff.mpr
      intro a ha
      obtain ⟨p, _, hpa⟩ := List.mem_map.mp ha
      rw [← hpa]
      exact (by decide : ¬(tPerson == tEmotion) = true)
    have hB : ((emotionCandidates msg).map (fun e => (tEmotion, e))).filter
        (fun c => c.1 == tEmotion)
        = (emotionCandidates msg).map (fun e => (tEmotion, e)) := by
      apply List.filter_eq_self.mpr
      intro a ha
      obtain ⟨e, _, hea⟩ := List.mem_map.mp ha
      rw [← hea]
      simp
    have hC : ((activityCandidates msg).map (fun a => (tActivity, a))).filter
        (fun c => c.1 == tEmotion) = [] := by
      apply List.filter_eq_nil_iff.mpr
      intro a ha
      obtain ⟨e, _, hea⟩ := List.mem_map.mp ha
      rw [← hea]
      exact (by decide : ¬(tActivity == tEmotion) = true)
    rw [hA, hB, hC, List.nil_append, List.append_nil]

/-- Witness for C8: in "I felt sad but GRATEFUL and happy today" the matches
are listed in vocabulary order (happy before sad) and capped at 2, dropping
grateful. -/
theorem emotion_extraction_exact_witness :
    (codes "grateful" ∈ foundEmotions (codes "I felt sad but GRATEFUL and happy today")
      ↔ codes "grateful" ∈ emotionsVocab
        ∧ substrB (codes "grateful")
            (lowerStr (codes "I felt sad but GRATEFUL and happy today")) = true)
    ∧ emotionCandidates (codes "I felt sad but GRATEFUL and happy today")
        = [codes "happy", codes "sad"] :=
  ⟨(emotion_extraction_exact (codes "I felt sad but GRATEFUL and happy today")).2.1
      (codes "grateful"),
   by decide⟩

/-! ## C7: extraction logging -/

theorem upsert_logs (st : Store) (pid et en : Str) (now : Nat) :
    (store_or_update_node st pid et en now).2.logs = st.logs := by
  rcases h : st.nodes.find? (keyMatch pid et en) with _ | n <;>
    simp [store_or_update_node, h]

theorem upsert_nid_mem (st : Store) (pid et en : Str) (now : Nat) :
    ∃ nd ∈ (store_or_update_node st pid et en now).2.nodes,
      nd.nid = (store_or_update_node st pid et en now).1.nid := by
  rcases h : st.nodes.find? (keyMatch pid et en) with _ | n
  · simp only [store_or_update_node, h]
    exact ⟨⟨st.nextId, pid, et, en, now, now, 1⟩, by simp, rfl⟩
  · simp only [store_or_update_node, h]
    refine ⟨(fun x => if x.nid == n.nid then
        ({ x with lastMentioned := now, mentionCount := x.mentionCount + 1 } : KnowledgeNode)
        else x) n,
      List.mem_map_of_mem _ (List.mem_of_find?_eq_some h), ?_⟩
    simp

theorem upsert_nid_pres (st : Store) (pid et en : Str) (now : Nat) (i : Nat)
    (h : ∃ nd ∈ st.nodes, nd.nid = i) :
    ∃ nd ∈ (store_or_update_node st pid et en now).2.nodes, nd.nid = i := by
  obtain ⟨nd, hmem, hi⟩ := h
  rcases hf : st.nodes.find? (keyMatch pid et en) with _ | n
  · simp only [store_or_update_node, hf]
    exact ⟨nd, by simp [hmem], hi⟩
  · simp only [store_or_update_node, hf]
    refine ⟨(fun x => if x.nid == n.nid then
        ({ x with lastMentioned := now, mentionCount := x.mentionCount + 1 } : KnowledgeNode)
        else x) nd,
      List.mem_map_of_mem _ hmem, ?_⟩
    by_cases hn : (nd.nid == n.nid) = true
    · simp only [hn, if_true]
      simpa using hi
    · simp only [hn, Bool.false_eq_true, if_false]
      exact hi

theorem foldl_extractStep_logs (pid : Str) (now : Nat) :
    ∀ (cands : List (Str × Str)) (st : Store) (ids : List Nat),
      ((cands.foldl (extractStep pid now) (st, ids)).1).logs = st.logs := by
  intro cands
  induction cands with
  | nil => intro st ids; rfl
  | cons c cs ih =>
    intro st ids
    rw [List.foldl_cons]
    exact (ih _ _).trans (upsert_logs st pid c.1 c.2 now)

theorem foldl_extractStep_pres (pid : Str) (now : Nat) (i : Nat) :
    ∀ (cands : List (Str × Str)) (st : Store) (ids : List Nat),
      (∃ nd ∈ st.nodes, nd.nid = i) →
      ∃ nd ∈ (cands.foldl (extractStep pid now) (st, ids)).1.nodes, nd.nid = i := by
  intro cands
  induction cands with
  | nil => intro st ids h; exact h
  | cons c cs ih =>
    intro st ids h
    rw [List.foldl_cons]
    exact ih _ _ (upsert_nid_pres st pid c.1 c.2 now i h)

theorem foldl_extractStep_len (pid : Str) (now : Nat) :
    ∀ (cands : List (Str × Str)) (st : Store) (ids : List Nat),
      ((cands.foldl (extractStep pid now) (st, ids)).2).length
        = ids.length + cands.length := by
  intro cands
  induction cands with
  | nil => intro st ids; rfl
  | cons c cs ih =>
    intro st ids
    rw [List.foldl_cons]
    have h1 := ih ((store_or_update_node st pid c.1 c.2 now).2)
      (ids ++ [(store_or_update_node st pid c.1 c.2 now).1.nid])
    have h2 : List.foldl (extractStep pid now) (extractStep pid now (st, ids) c) cs
        = List.foldl (extractStep pid now)
          ((store_or_update_node st pid c.1 c.2 now).2,
            ids ++ [(store_or_update_node st pid c.1 c.2 now).1.nid]) cs := rfl
    rw [h2, h1]
    simp only [List.length_append, List.length_cons, List.length_nil]
    omega

theorem foldl_extractStep_ids (pid : Str) (now : Nat) (i : Nat) :
    ∀ (cands : List (Str × Str)) (st : Store) (ids : List Nat),
      i ∈ (cands.foldl (extractStep pid now) (st, ids)).2 →
      i ∈ ids ∨ ∃ nd ∈ (cands.foldl (extractStep pid now) (st, ids)).1.nodes, nd.nid = i := by
  intro cands
  induction cands with
  | nil => intro st ids h; exact Or.inl h
  | cons c cs ih =>
    intro st ids h
    rw [List.foldl_cons] at h ⊢
    rcases ih _ _ h with hin | hin
    · rcases List.mem_append.mp hin with hin | hin
      · exact Or.inl hin
      · right
        have h0 : i = (store_or_update_node st pid c.1 c.2 now).1.nid := by simpa using hin
        obtain ⟨nd, hmem, hnid⟩ := upsert_nid_mem st pid c.1 c.2 now
        exact foldl_extractStep_pres pid now i cs _ _ ⟨nd, hmem, by rw [hnid, ← h0]⟩
    · exact Or.inr hin

theorem lowerStr_sp {msg : Str} (h : ∀ c ∈ msg, isSpC c = true) :
    ∀ c ∈ lowerStr msg, isSpC c = true := by
  intro c hc
  obtain ⟨x, hx, hcx⟩ := List.mem_map.mp hc
  rw [← hcx, lowerChar_sp (h x hx)]
  exact h x hx

theorem emotionsVocab_nonspace : ∀ e ∈ emotionsVocab, ∃ c ∈ e, isSpC c = false := by
  decide

theorem foundEmotions_ws {msg : Str} (h : ∀ c ∈ msg, isSpC c = true) :
    foundEmotions msg = [] := by
  apply List.filter_eq_nil_iff.mpr
  intro e he hsub
  obtain ⟨c, hce, hcns⟩ := emotionsVocab_nonspace e he
  have hT := lowerStr_sp h c (mem_of_substrB hsub c hce)
  rw [hcns] at hT
  cases hT

theorem scanTemplate_ws (pat : Str)
    (hh : (match pat with | [] => false | c :: _ => !(isSpC c)) = true) :
    ∀ (fuel : Nat) (cs : Str), (∀ c ∈ cs, isSpC c = true) → scanTemplate pat fuel cs = [] := by
  rcases pat with _ | ⟨p0, pr⟩
  · simp at hh
  have hp0 : isSpC p0 = false := by simpa using hh
  intro fuel
  induction fuel with
  | zero => intro cs h; simp [scanTemplate]
  | succ f ih =>
    intro cs h
    rcases cs with _ | ⟨c, cs'⟩
    · simp [scanTemplate]
    have hc := h c (by simp)
    have hsw : startsWithB (p0 :: pr) (c :: cs') = false := by
      simp only [startsWithB]
      have hne : (p0 == c) = false := by
        apply beq_eq_false_iff_ne.mpr
        intro hpc
        rw [hpc, hc] at hp0
        cases hp0
      simp [hne]
    simp only [scanTemplate, hsw, Bool.false_eq_true, if_false]
    exact ih cs' (fun x hx => h x (by simp [hx]))

theorem foundActivities_ws {msg : Str} (h : ∀ c ∈ msg, isSpC c = true) :
    foundActivities msg = [] := by
  rw [foundActivities]
  apply List.flatten_eq_nil_iff.mpr
  intro l hl
  obtain ⟨p, hp, hpl⟩ := List.mem_map.mp hl
  rw [← hpl]
  have hsp := lowerStr_sp h
  fin_cases hp <;> exact scanTemplate_ws _ (by decide) _ _ hsp

theorem extractCandidates_ws {msg : Str} (h : ∀ c ∈ msg, isSpC c = true) :
    extractCandidates msg = [] := by
  have hp : peopleCandidates msg = [] := by
    rw [peopleCandidates, peopleFiltered, reFindAllPeople, scanP_ws _ _ _ h]
    rfl
  have he : emotionCandidates msg = [] := by
    rw [emotionCandidates, foundEmotions_ws h]
    rfl
  have ha : activityCandidates msg = [] := by
    rw [activityCandidates, foundActivities_ws h]
    rfl
  rw [extractCandidates, hp, he, ha]
  rfl

/-- C7: every extraction run appends exactly one `ExtractionLog` holding
the full input message, ids of nodes present in the resulting store, and an
always-empty edge list; a whitespace-only message produces no candidates
but still writes the log with an empty id list. -/
theorem extraction_log_invariant (st : Store) (pid cid msg resp : Str) (now : Nat) :
    ∃ lg : ExtractionLog,
      (extract_knowledge_from_message st pid cid msg resp now).logs = st.logs ++ [lg]
      ∧ lg.messageContent = msg
      ∧ lg.extractedEdges = []
      ∧ lg.profileId = pid ∧ lg.conversationId = cid
      ∧ lg.extractedNodes.length = (extractCandidates msg).length
      ∧ (∀ i ∈ lg.extractedNodes,
          ∃ nd ∈ (extract_knowledge_from_message st pid cid msg resp now).nodes, nd.nid = i)
      ∧ ((∀ c ∈ msg, isSpC c = true) →
          extractCandidates msg = [] ∧ lg.extractedNodes = []) := by
  refine ⟨⟨pid, cid, msg,
      ((extractCandidates msg).foldl (extractStep pid now) (st, [])).2, []⟩,
      ?_, rfl, rfl, rfl, rfl, ?_, ?_, ?_⟩
  · rw [extract_knowledge_from_message]
    rw [foldl_extractStep_logs pid now (extractCandidates msg) st []]
  · simpa using foldl_extractStep_len pid now (extractCandidates msg) st []
  · intro i hi
    rcases foldl_extractStep_ids pid now i (extractCandidates msg) st [] hi with hin | hin
    · cases hin
    · exact hin
  · intro hws
    have hc := extractCandidates_ws hws
    refine ⟨hc, ?_⟩
    rw [hc]
    rfl

/-- Witness for C7 on the whitespace-only message "   " against the empty
store. -/
theorem extraction_log_invariant_witness :
    extractCandidates (codes "   ") = []
    ∧ (extract_knowledge_from_message ⟨[], [], [], 0⟩ (codes "p1") (codes "c1")
        (codes "   ") (codes "ok") 3).logs.length = 1 := by
  obtain ⟨lg, h1, _, _, _, _, _, _, h8⟩ :=
    extraction_log_invariant ⟨[], [], [], 0⟩ (codes "p1") (codes "c1") (codes "   ") (codes "ok") 3
  refine ⟨(h8 (by decide)).1, ?_⟩
  rw [h1]
  rfl

/-! ## C10: stored Emotion and Activity names are lowercase -/

theorem emotionsVocab_lower : ∀ e ∈ emotionsVocab, lowerStr e = e := by decide

theorem lowerStr_fixed {w : Str} (h : ∀ x ∈ w, lowerChar x = x) : lowerStr w = w := by
  induction w with
  | nil => rfl
  | cons a l ih =>
    rw [lowerStr, List.map_cons, h a (by simp)]
    rw [lowerStr] at ih
    rw [ih (fun x hx => h x (by simp [hx]))]

theorem mem_lowerStr_fixed {msg : Str} {c : Nat} (h : c ∈ lowerStr msg) :
    lowerChar c = c := by
  obtain ⟨x, _, hcx⟩ := List.mem_map.mp h
  rw [← hcx]
  exact lowerChar_idem x

theorem scanTemplate_subset (pat : Str) :
    ∀ (fuel : Nat) (cs w : Str), w ∈ scanTemplate pat fuel cs → ∀ c ∈ w, c ∈ cs := by
  intro fuel
  induction fuel with
  | zero => intro cs w hw; simp [scanTemplate] at hw
  | succ f ih =>
    intro cs w hw
    rcases cs with _ | ⟨c, cs'⟩
    · simp [scanTemplate] at hw
    by_cases hsw : startsWithB pat (c :: cs') = true
    · by_cases hemp : (((c :: cs').drop pat.length).takeWhile isWordC).isEmpty = true
      · simp only [scanTemplate, hsw, if_true, hemp] at hw
        intro x hx
        exact List.mem_cons_of_mem c (ih cs' w hw x hx)
      · simp only [scanTemplate, hsw, if_true, hemp, Bool.false_eq_true, if_false] at hw
        rcases List.mem_cons.mp hw with hw | hw
        · subst hw
          intro x hx
          exact List.drop_subset pat.length (c :: cs')
            ((List.takeWhile_sublist isWordC).subset hx)
        · intro x hx
          exact List.drop_subset pat.length (c :: cs')
            ((List.dropWhile_sublist isWordC).subset (ih _ w hw x hx))
    · simp only [scanTemplate, hsw, Bool.false_eq_true, if_false] at hw
      intro x hx
      exact List.mem_cons_of_mem c (ih cs' w hw x hx)

/-- C10 (implicit): every Emotion or Activity candidate name produced by
extraction equals its own lowercase form (so differently-capitalized
re-mentions collapse onto one stored node), while the node key is
case-sensitive: two distinct names that agree after lowercasing create two
distinct Person nodes. -/
theorem emotion_activity_lowercase :
    (∀ (msg : Str), ∀ c ∈ extractCandidates msg,
        c.1 = tEmotion ∨ c.1 = tActivity → lowerStr c.2 = c.2)
    ∧ (∀ (st : Store) (pid et a b : Str) (now : Nat),
        a ≠ b → lowerStr a = lowerStr b →
        st.nodes.find? (keyMatch pid et a) = none →
        st.nodes.find? (keyMatch pid et b) = none →
        ∃ na nb : KnowledgeNode,
          na ∈ (store_or_update_node
              (store_or_update_node st pid et a now).2 pid et b now).2.nodes
          ∧ nb ∈ (store_or_update_node
              (store_or_update_node st pid et a now).2 pid et b now).2.nodes
          ∧ na.entityName = a ∧ nb.entityName = b ∧ na ≠ nb) := by
  constructor
  · intro msg c hc htype
    rw [extractCandidates] at hc
    rcases List.mem_append.mp hc with hc | hc
    · rcases List.mem_append.mp hc with hc | hc
      · obtain ⟨p, _, hpc⟩ := List.mem_map.mp hc
        exfalso
        rcases htype with ht | ht
        · rw [← hpc] at ht
          exact (by decide : ¬ tPerson = tEmotion) ht
        · rw [← hpc] at ht
          exact (by decide : ¬ tPerson = tActivity) ht
      · obtain ⟨e, he, hec⟩ := List.mem_map.mp hc
        rw [← hec]
        have : e ∈ foundEmotions msg := List.mem_of_mem_take he
        exact emotionsVocab_lower e (List.mem_filter.mp this).1
    · obtain ⟨w, hw, hwc⟩ := List.mem_map.mp hc
      rw [← hwc]
      have hwf : w ∈ foundActivities msg := List.mem_of_mem_take hw
      rw [foundActivities] at hwf
      obtain ⟨l, hl, hwl⟩ := List.mem_flatten.mp hwf
      obtain ⟨p, _, hpl⟩ := List.mem_map.mp hl
      rw [← hpl] at hwl
      apply lowerStr_fixed
      intro x hx
      exact mem_lowerStr_fixed (scanTemplate_subset p _ _ w hwl x hx)
  · intro st pid et a b now hab hlow ha hb
    have h1 : store_or_update_node st pid et a now
        = (⟨st.nextId, pid, et, a, now, now, 1⟩,
           { st with nodes := st.nodes ++ [⟨st.nextId, pid, et, a, now, now, 1⟩],
                     nextId := st.nextId + 1 }) := by
      simp [store_or_update_node, ha]
    have hkey : keyMatch pid et b ⟨st.nextId, pid, et, a, now, now, 1⟩ = false := by
      simp [keyMatch]
      exact hab
    have h2 : (st.nodes ++ [(⟨st.nextId, pid, et, a, now, now, 1⟩ : KnowledgeNode)]).find?
        (keyMatch pid et b) = none := by
      rw [List.find?_append, hb]
      simp [hkey]
    rw [h1]
    have h3 : store_or_update_node
        ({ st with nodes := st.nodes ++ [⟨st.nextId, pid, et, a, now, now, 1⟩],
                   nextId := st.nextId + 1 }) pid et b now
        = (⟨st.nextId + 1, pid, et, b, now, now, 1⟩,
           { st with nodes := (st.nodes ++ [⟨st.nextId, pid, et, a, now, now, 1⟩])
                       ++ [⟨st.nextId + 1, pid, et, b, now, now, 1⟩],
                     nextId := st.nextId + 2 }) := by
      simp [store_or_update_node, h2]
    rw [h3]
    refine ⟨⟨st.nextId, pid, et, a, now, now, 1⟩, ⟨st.nextId + 1, pid, et, b, now, now, 1⟩,
      by simp, by simp, rfl, rfl, ?_⟩
    intro heq
    have := congrArg KnowledgeNode.entityName heq
    exact hab this

/-- Witness for C10: "I am Happy and WORRIED" yields lowercase emotion
candidates, and upserting "Sarah" then "sarah" creates two distinct
nodes. -/
theorem emotion_activity_lowercase_witness :
    (∀ c ∈ extractCandidates (codes "I am Happy and WORRIED"),
        c.1 = tEmotion ∨ c.1 = tActivity → lowerStr c.2 = c.2)
    ∧ (∃ na nb : KnowledgeNode,
        na ∈ (store_or_update_node
            (store_or_update_node ⟨[], [], [], 0⟩ (codes "p1") tPerson (codes "Sarah") 4).2
            (codes "p1") tPerson (codes "sarah") 4).2.nodes
        ∧ nb ∈ (store_or_update_node
            (store_or_update_node ⟨[], [], [], 0⟩ (codes "p1") tPerson (codes "Sarah") 4).2
            (codes "p1") tPerson (codes "sarah") 4).2.nodes
        ∧ na.entityName = codes "Sarah" ∧ nb.entityName = codes "sarah" ∧ na ≠ nb) :=
  ⟨fun c hc => emotion_activity_lowercase.1 (codes "I am Happy and WORRIED") c hc,
   emotion_activity_lowercase.2 ⟨[], [], [], 0⟩ (codes "p1") tPerson
     (codes "Sarah") (codes "sarah") 4 (by decide) (by decide) rfl rfl⟩

end Mindful
